import Mathlib

/-!
Verification development for the `cmdty_storage` Python package
(`cmdty_storage/cmdty_storage.py` plus its tests and the GUI sample).

The Python code under `src/` is a thin wrapper over the .NET `Cmdty.Storage`
library, which belongs to this repository but is not shipped under `src/`.
Where a claim is decided by wrapper code, the definitions below are a direct
shallow embedding of that Python code.  Where a claim is decided by the .NET
engine (piecewise-linear ratchet interpolation, builder validation, the
intrinsic backward-induction engine, the LSM extrinsic engine), the
corresponding definition is modelled from the specification and its doc
comment says so explicitly.

All quantities are rationals (ℚ); time periods are integers (day ordinals at
daily granularity, generic ordinals otherwise).
-/

/-- Proleptic-Gregorian day number (days-from-civil).  Used so that theorems
about the daily-granularity storage of the test suite can name real dates. -/
def dayNumber (y m d : ℤ) : ℤ :=
  let yy : ℤ := if m ≤ 2 then y - 1 else y
  let era : ℤ := (if 0 ≤ yy then yy else yy - 399) / 400
  let yoe : ℤ := yy - era * 400
  let mp : ℤ := if 2 < m then m - 3 else m + 9
  let doy : ℤ := (153 * mp + 2) / 5 + d - 1
  let doe : ℤ := yoe * 365 + yoe / 4 - yoe / 100 + doy
  era * 146097 + doe - 719468

/-- The result of `CmdtyStorage.inject_withdraw_range`: named tuple
`InjectWithdrawRange` of `cmdty_storage.py` line 52. -/
structure InjectWithdrawRange where
  min_inject_withdraw_rate : ℚ
  max_inject_withdraw_rate : ℚ
deriving DecidableEq, Repr

/-- Linear interpolation through `(x0, y0)` and `(x1, y1)` evaluated at `x`. -/
def lerp (x0 y0 x1 y1 x : ℚ) : ℚ :=
  y0 + (y1 - y0) * (x - x0) / (x1 - x0)

/-- Modelled from the spec: the piecewise-linear inventory interpolation of
the .NET `Cmdty.Storage` builder (`WithTimeAndInventoryVaryingInjectWithdrawRatesPiecewiseLinear`),
which is not under `src/`.  "All inventory-dependent lookups linearly
interpolate between the two bracketing breakpoints of the ratchet effective
at that period; values below the lowest or above the highest breakpoint clamp
to the boundary breakpoint's value."  Points are `(inventory, value)` pairs
sorted ascending by inventory. -/
def interpPts : List (ℚ × ℚ) → ℚ → ℚ
  | [], _ => 0
  | [(_, y0)], _ => y0
  | (x0, y0) :: (x1, y1) :: rest, x =>
    if x ≤ x0 then y0
    else if x ≤ x1 then lerp x0 y0 x1 y1 x
    else interpPts ((x1, y1) :: rest) x

/-- One ratchet's breakpoints: `(inventory, min_rate, max_rate)` triples,
the `rates_by_inventory` of `InjectWithdrawByInventoryAndPeriod`. -/
abbrev RatesByInventory := List (ℚ × ℚ × ℚ)

/-- Modelled from the spec: "a ratchet's rates remain in force for every
subsequent period until superseded by the next chronological ratchet"
(the ratchet list is sorted ascending by period).  Returns the breakpoints
of the ratchet effective at period `p`, or `none` when `p` precedes every
ratchet. -/
def effectiveRatchet : List (ℤ × RatesByInventory) → ℤ → Option RatesByInventory
  | [], _ => none
  | (q, r) :: rest, p =>
    if q ≤ p then some ((effectiveRatchet rest p).getD r) else none

/-- The .NET time-period types bound in `FREQ_TO_PERIOD_TYPE`
(`cmdty_storage.py` lines 102-109). -/
inductive NetPeriodType where
  | quarterHour
  | halfHour
  | hour
  | day
  | month
  | quarter
deriving DecidableEq, Repr

/-- `FREQ_TO_PERIOD_TYPE` of `cmdty_storage.py` lines 102-109: the map from
pandas offset alias to .NET time-period type, whose keys are the supported
granularities. -/
def FREQ_TO_PERIOD_TYPE : List (String × NetPeriodType) :=
  [("15min", NetPeriodType.quarterHour),
   ("30min", NetPeriodType.halfHour),
   ("H", NetPeriodType.hour),
   ("D", NetPeriodType.day),
   ("M", NetPeriodType.month),
   ("Q", NetPeriodType.quarter)]

/-- Key lookup in an association list of frequency strings, as performed by
`freq not in FREQ_TO_PERIOD_TYPE` and `FREQ_TO_PERIOD_TYPE[freq]` in the
Python source. -/
def lookupPeriodType : List (String × NetPeriodType) → String → Option NetPeriodType
  | [], _ => none
  | (k, v) :: rest, f => if f = k then some v else lookupPeriodType rest f

/-- Error taxonomy of the spec (§7): validation, frequency-mismatch and
domain errors are the ones reachable in the embedded code paths. -/
inductive StorageError where
  | validation
  | frequencyMismatch
  | domain
deriving DecidableEq, Repr

/-- The storage facility model: the state built by `CmdtyStorage.__init__`
(`cmdty_storage.py` lines 159-231).  The Python object holds a .NET storage
plus the frequency string; here the .NET storage is represented by the
constructor arguments it was built from. -/
structure CmdtyStorage where
  freq : String
  storage_start : ℤ
  storage_end : ℤ
  constraints : List (ℤ × RatesByInventory)
  per_unit_injection_cost : ℚ
  per_unit_withdrawal_cost : ℚ
  consumed_inject_pcnt : Option ℚ
  consumed_withdraw_pcnt : Option ℚ
  terminal_npv_fn : Option (ℚ → ℚ → ℚ)
  inventory_loss_pcnt : Option ℚ
  inventory_cost_per_unit : Option ℚ

/-- Executable check that breakpoint inventories are strictly ascending.
Modelled from the spec: "each ratchet is a period plus a set of
(inventory breakpoint, min rate, max rate) triples sorted ascending by
inventory". -/
def bpsAscending : RatesByInventory → Bool
  | [] => true
  | [_] => true
  | a :: b :: r => decide (a.1 < b.1) && bpsAscending (b :: r)

/-- Executable check that `min rate ≤ max rate` at every breakpoint. -/
def bpsMinLeMax (bps : RatesByInventory) : Bool :=
  bps.all fun b => decide (b.2.1 ≤ b.2.2)

/-- `CmdtyStorage.__init__` (`cmdty_storage.py` lines 159-231).  The `freq`
membership check (lines 165-166) is wrapper code; the remaining validation is
modelled from the spec, since it lives in the .NET builder that is not under
`src/`: "Fails with a validation error if ratchet breakpoints are unsorted,
min > max at any breakpoint, start ≥ end".  Note that no grid-point count is
received here: per the source, `num_inventory_grid_points` is a parameter of
the valuation call `intrinsic_value`, not of construction. -/
def cmdtyStorageInit (freq : String) (storage_start storage_end : ℤ)
    (constraints : List (ℤ × RatesByInventory))
    (injection_cost withdrawal_cost : ℚ)
    (cmdty_consumed_inject cmdty_consumed_withdraw : Option ℚ)
    (terminal_storage_npv : Option (ℚ → ℚ → ℚ))
    (inventory_loss inventory_cost : Option ℚ) :
    Except StorageError CmdtyStorage :=
  if (lookupPeriodType FREQ_TO_PERIOD_TYPE freq).isNone then .error .validation
  else if storage_end ≤ storage_start then .error .validation
  else if !(constraints.all fun c => bpsAscending c.2 && bpsMinLeMax c.2) then .error .validation
  else .ok
    { freq := freq
      storage_start := storage_start
      storage_end := storage_end
      constraints := constraints
      per_unit_injection_cost := injection_cost
      per_unit_withdrawal_cost := withdrawal_cost
      consumed_inject_pcnt := cmdty_consumed_inject
      consumed_withdraw_pcnt := cmdty_consumed_withdraw
      terminal_npv_fn := terminal_storage_npv
      inventory_loss_pcnt := inventory_loss
      inventory_cost_per_unit := inventory_cost }

/-- `CmdtyStorage.inject_withdraw_range` (`cmdty_storage.py` lines 257-262):
delegates to the .NET `GetInjectWithdrawRange`, modelled from the spec as
piecewise-linear interpolation over the breakpoints of the ratchet effective
at `period`.  When no ratchet is effective the result defaults to zero
rates. -/
def CmdtyStorage.inject_withdraw_range (s : CmdtyStorage) (period : ℤ)
    (inventory : ℚ) : InjectWithdrawRange :=
  match effectiveRatchet s.constraints period with
  | none => ⟨0, 0⟩
  | some bps =>
    ⟨interpPts (bps.map fun b => (b.1, b.2.1)) inventory,
     interpPts (bps.map fun b => (b.1, b.2.2)) inventory⟩

/-- `CmdtyStorage.must_be_empty_at_end` (`cmdty_storage.py` lines 245-247):
true exactly when `__init__` was given no `terminal_storage_npv` function, in
which case the builder call was `MustBeEmptyAtEnd()` (lines 225-228). -/
def CmdtyStorage.must_be_empty_at_end (s : CmdtyStorage) : Bool :=
  s.terminal_npv_fn.isNone

/-- `CmdtyStorage.terminal_storage_npv` (`cmdty_storage.py` lines 294-295).
Modelled from the spec for the .NET side: a storage built with
`WithTerminalInventoryNpv(f)` uses `f`; a must-be-empty storage has zero
terminal value. -/
def CmdtyStorage.terminal_storage_npv (s : CmdtyStorage) : ℚ → ℚ → ℚ :=
  match s.terminal_npv_fn with
  | some f => f
  | none => fun _ _ => 0

/-- `CmdtyStorage.min_inventory` (`cmdty_storage.py` lines 264-266).
Modelled from the spec: the lowest breakpoint inventory of the ratchet
effective at `period`. -/
def CmdtyStorage.min_inventory (s : CmdtyStorage) (period : ℤ) : ℚ :=
  (((effectiveRatchet s.constraints period).getD []).headD (0, 0, 0)).1

/-- `CmdtyStorage.max_inventory` (`cmdty_storage.py` lines 268-270).
Modelled from the spec: the highest breakpoint inventory of the ratchet
effective at `period`. -/
def CmdtyStorage.max_inventory (s : CmdtyStorage) (period : ℤ) : ℚ :=
  (((effectiveRatchet s.constraints period).getD []).getLastD (0, 0, 0)).1

/-- `CmdtyStorage.injection_cost` (`cmdty_storage.py` lines 272-277).
Modelled from the spec: per-unit injection cost times the injected volume. -/
def CmdtyStorage.injection_cost (s : CmdtyStorage) (_period : ℤ)
    (_inventory injected_volume : ℚ) : ℚ :=
  s.per_unit_injection_cost * injected_volume

/-- `CmdtyStorage.withdrawal_cost` (`cmdty_storage.py` lines 283-288).
Modelled from the spec: per-unit withdrawal cost times the withdrawn
volume. -/
def CmdtyStorage.withdrawal_cost (s : CmdtyStorage) (_period : ℤ)
    (_inventory withdrawn_volume : ℚ) : ℚ :=
  s.per_unit_withdrawal_cost * withdrawn_volume

/-- `CmdtyStorage.cmdty_consumed_inject` (`cmdty_storage.py` lines 279-281).
Modelled from the spec: the fixed percentage of the injected volume consumed
on injection (zero when `WithNoCmdtyConsumedOnInject` was used). -/
def CmdtyStorage.cmdty_consumed_inject (s : CmdtyStorage) (_period : ℤ)
    (_inventory injected_volume : ℚ) : ℚ :=
  (s.consumed_inject_pcnt.getD 0) * injected_volume

/-- `CmdtyStorage.cmdty_consumed_withdraw` (`cmdty_storage.py` lines 290-292).
Modelled from the spec: the fixed percentage of the withdrawn volume consumed
on withdrawal. -/
def CmdtyStorage.cmdty_consumed_withdraw (s : CmdtyStorage) (_period : ℤ)
    (_inventory withdrawn_volume : ℚ) : ℚ :=
  (s.consumed_withdraw_pcnt.getD 0) * withdrawn_volume

/-- `CmdtyStorage.inventory_pcnt_loss` (`cmdty_storage.py` lines 297-299).
Modelled from the spec: the fixed percentage of inventory lost per period. -/
def CmdtyStorage.inventory_pcnt_loss (s : CmdtyStorage) (_period : ℤ) : ℚ :=
  s.inventory_loss_pcnt.getD 0

/-- `CmdtyStorage.inventory_cost` (`cmdty_storage.py` lines 301-306).
Modelled from the spec: fixed per-unit holding cost times the inventory. -/
def CmdtyStorage.inventory_cost (s : CmdtyStorage) (_period : ℤ)
    (inventory : ℚ) : ℚ :=
  (s.inventory_cost_per_unit.getD 0) * inventory

/-- `CmdtyStorage.start_period` property (`cmdty_storage.py` lines 249-251). -/
def CmdtyStorage.start_period (s : CmdtyStorage) : ℤ := s.storage_start

/-- `CmdtyStorage.end_period` property (`cmdty_storage.py` lines 253-255). -/
def CmdtyStorage.end_period (s : CmdtyStorage) : ℤ := s.storage_end

/-!
## The valuation engines

Modelled from the spec: the intrinsic backward-induction engine (§4.3) and
the LSM extrinsic engine (§4.5) live in the .NET `Cmdty.Storage` assembly,
which is part of this repository but not under `src/`.  Both are modelled as
a backward dynamic program over an abstract list of decision steps.  The
decision search of §4.3 ("a bounded line search") is modelled as a finite
candidate list per (period, inventory); the spec's cashflow
"−d × forward price(p), less unit cost and consumption cost, converted to
present value" is kept affine in the price: a bought volume times price plus
a price-independent cost, scaled by a discount factor.
-/

/-- One decision period of the backward induction, modelled from spec §4.3:
a finite decision search set, the inventory transition, the volume of
commodity bought at market price (decision plus commodity consumed), the
price-independent cost, and the discount factor delivered by
`SettlementAndDiscounting` for this period's cashflow. -/
structure Step where
  decisions : ℚ → List ℚ
  next : ℚ → ℚ → ℚ
  vol : ℚ → ℚ → ℚ
  cost : ℚ → ℚ → ℚ
  disc : ℚ

/-- The discounted immediate cashflow of decision `d` at inventory `inv`
when the period's price is `price` (spec §4.3's `Objective` head). -/
def stepCashflow (s : Step) (price inv d : ℚ) : ℚ :=
  s.disc * (-(s.vol inv d) * price - s.cost inv d)

/-- Maximum of a list of rationals (zero for the empty list; the engines
only apply it to nonempty candidate lists). -/
def maxList : List ℚ → ℚ
  | [] => 0
  | [a] => a
  | a :: b :: r => max a (maxList (b :: r))

/-- Modelled from the spec (§4.3): the backward-induction value function.
`steps` carries each period's decision structure, `prices` the per-period
prices (head first; a missing price counts as zero); `termPrice` and `term`
give the terminal-value rule applied at the end period. -/
def dpValue (term : ℚ → ℚ → ℚ) (termPrice : ℚ) : List Step → List ℚ → ℚ → ℚ
  | [], _, inv => term termPrice inv
  | s :: rest, ps, inv =>
    maxList ((s.decisions inv).map fun d =>
      stepCashflow s (ps.headD 0) inv d + dpValue term termPrice rest ps.tail (s.next inv d))

/-- The value of replaying a fixed decision sequence `ds` forward (spec
§4.3: "replaying chosen decisions forward from the start").  A missing
decision counts as zero. -/
def planValue (term : ℚ → ℚ → ℚ) (termPrice : ℚ) :
    List ℚ → List Step → List ℚ → ℚ → ℚ
  | _, [], _, inv => term termPrice inv
  | ds, s :: rest, ps, inv =>
    stepCashflow s (ps.headD 0) inv (ds.headD 0) +
      planValue term termPrice ds.tail rest ps.tail (s.next inv (ds.headD 0))

/-- A decision sequence is feasible when each decision lies in the decision
set offered at the inventory reached at its period.  Prices play no role:
the inventory trajectory is price-independent. -/
def planFeasible : List ℚ → List Step → ℚ → Prop
  | _, [], _ => True
  | ds, s :: rest, inv =>
    (ds.headD 0) ∈ s.decisions inv ∧ planFeasible ds.tail rest (s.next inv (ds.headD 0))

/-- An element of `l` maximising `f` (zero for the empty list). -/
def argmaxBy (f : ℚ → ℚ) : List ℚ → ℚ
  | [] => 0
  | [a] => a
  | a :: b :: r =>
    let m := argmaxBy f (b :: r)
    if f m ≤ f a then a else m

/-- The decision sequence selected by the backward induction, read forward
(spec §4.3: "Record optimal d ... at every grid point" then replay). -/
def dpPlan (term : ℚ → ℚ → ℚ) (termPrice : ℚ) : List Step → List ℚ → ℚ → List ℚ
  | [], _, _ => []
  | s :: rest, ps, inv =>
    let d := argmaxBy
      (fun d => stepCashflow s (ps.headD 0) inv d +
        dpValue term termPrice rest ps.tail (s.next inv d))
      (s.decisions inv)
    d :: dpPlan term termPrice rest ps.tail (s.next inv d)

/-- The commodity volume consumed at each period when replaying a fixed
decision sequence: the bought volume less the decision itself. -/
def planConsumed : List Step → List ℚ → ℚ → List ℚ
  | [], _, _ => []
  | s :: rest, ds, inv =>
    (s.vol inv (ds.headD 0) - (ds.headD 0)) :: planConsumed rest ds.tail (s.next inv (ds.headD 0))

/-- A pandas forward-curve series as consumed by `intrinsic_value`: its
`index.freqstr` plus the period-to-price mapping. -/
structure ForwardCurve where
  freqstr : String
  prices : List (ℤ × ℚ)

/-- Price of the forward curve at a period (zero when absent; the spec
requires the curve to be gap-free over the active window). -/
def ForwardCurve.priceAt (c : ForwardCurve) (p : ℤ) : ℚ :=
  match c.prices.lookup p with
  | some v => v
  | none => 0

/-- `IntrinsicValuationResults` (`cmdty_storage.py` line 49): the named
tuple returned by `intrinsic_value`, with fields
`npv, decision_profile, cmdty_consumed`. -/
structure IntrinsicValuationResults where
  npv : ℚ
  decision_profile : List (ℤ × ℚ)
  cmdty_consumed : List (ℤ × ℚ)

/-- The field names of the `IntrinsicValuationResults` named tuple, exactly
as declared on `cmdty_storage.py` line 49:
`namedtuple('IntrinsicValuationResults', 'npv, decision_profile, cmdty_consumed')`. -/
def intrinsicValuationResultsFields : List String :=
  ["npv", "decision_profile", "cmdty_consumed"]

/-- The storage's active decision periods: every period from the start up to
but excluding the end period (the end period carries the terminal rule). -/
def CmdtyStorage.activePeriods (s : CmdtyStorage) : List ℤ :=
  (List.range (s.storage_end - s.storage_start).toNat).map
    fun k => s.storage_start + (k : ℤ)

/-- Modelled from the spec (§4.3): the finite decision-search candidates at
a (period, inventory): the extreme rates of `inject_withdraw_range` and the
do-nothing decision, filtered by the §4.3 side constraint that the resulting
inventory stay within the next period's inventory bounds. -/
def CmdtyStorage.decisionCandidates (s : CmdtyStorage) (p : ℤ) (inv : ℚ) : List ℚ :=
  let r := s.inject_withdraw_range p inv
  [r.min_inject_withdraw_rate, 0, r.max_inject_withdraw_rate].filter fun d =>
    decide (s.min_inventory (p + 1) ≤ inv + d - s.inventory_pcnt_loss p * inv) &&
    decide (inv + d - s.inventory_pcnt_loss p * inv ≤ s.max_inventory (p + 1))

/-- Modelled from the spec (§4.3): the engine step at period `p`.
`discFactor` is the discount factor of `SettlementAndDiscounting` for
cashflows of period `p`. -/
def CmdtyStorage.stepAt (s : CmdtyStorage) (discFactor : ℤ → ℚ) (p : ℤ) : Step :=
  { decisions := fun inv => s.decisionCandidates p inv
    next := fun inv d => inv + d - s.inventory_pcnt_loss p * inv
    vol := fun inv d =>
      if 0 ≤ d then d + s.cmdty_consumed_inject p inv d
      else d - s.cmdty_consumed_withdraw p inv (-d)
    cost := fun inv d =>
      (if 0 ≤ d then s.injection_cost p inv d else s.withdrawal_cost p inv (-d)) +
        s.inventory_cost p inv
    disc := discFactor p }

/-- The terminal-value rule applied by the engine at the end period:
the supplied terminal function, or zero value for a must-be-empty storage. -/
def CmdtyStorage.terminalRule (s : CmdtyStorage) : ℚ → ℚ → ℚ :=
  s.terminal_storage_npv

/-- Modelled from the spec (§4.3): the body of the intrinsic calculation
that `intrinsic_value` delegates to the .NET
`IntrinsicStorageValuation ... .Calculate()` chain (`cmdty_storage.py`
lines 126-154).  Fails with a domain error when the starting inventory lies
outside the start period's inventory bounds; otherwise runs the backward
induction over the active periods and replays the selected decisions. -/
def intrinsicCalc (s : CmdtyStorage) (inventory : ℚ) (curve : ForwardCurve)
    (discFactor : ℤ → ℚ) : Except StorageError IntrinsicValuationResults :=
  if inventory < s.min_inventory s.storage_start ∨
      s.max_inventory s.storage_start < inventory then .error .domain
  else
    let steps := s.activePeriods.map (s.stepAt discFactor)
    let prices := s.activePeriods.map curve.priceAt
    let termPrice := curve.priceAt s.storage_end
    let plan := dpPlan s.terminalRule termPrice steps prices inventory
    .ok
      { npv := dpValue s.terminalRule termPrice steps prices inventory
        decision_profile := s.activePeriods.zip plan
        cmdty_consumed := s.activePeriods.zip (planConsumed steps plan inventory) }

/-- `intrinsic_value` (`cmdty_storage.py` lines 120-154).  The frequency
check (lines 123-124) is wrapper code executed before anything else; the
grid-point validation performed by the .NET
`WithFixedNumberOfPointsOnGlobalInventoryRange` inside this valuation call
is modelled from the spec ("grid point count ≥ 2"); the calculation itself
is `intrinsicCalc`.  The settlement rule and interest rates of the source are
abstracted into the discount-factor function `discFactor` (exponential
Act/365 discounting is not rational-valued). -/
def intrinsic_value (s : CmdtyStorage) (inventory : ℚ)
    (forward_curve : ForwardCurve) (discFactor : ℤ → ℚ)
    (num_inventory_grid_points : ℕ) :
    Except StorageError IntrinsicValuationResults :=
  if s.freq ≠ forward_curve.freqstr then .error .frequencyMismatch
  else if num_inventory_grid_points < 2 then .error .validation
  else intrinsicCalc s inventory forward_curve discFactor

/-- Intrinsic NPV of the abstract engine: the backward-induction value on
the forward curve (spec §4.3). -/
def intrinsicNpv (term : ℚ → ℚ → ℚ) (steps : List Step) (F : List ℚ)
    (termF : ℚ) (inv : ℚ) : ℚ :=
  dpValue term termF steps F inv

/-- Modelled from the spec (§4.4-§4.5): the full NPV of the extrinsic
engine, as the probability-weighted cross-path average of the per-path
optimal value.  Each path is a weight together with its per-period price
list and its terminal price. -/
def fullNpv (term : ℚ → ℚ → ℚ) (steps : List Step)
    (paths : List (ℚ × (List ℚ × ℚ))) (inv : ℚ) : ℚ :=
  (paths.map fun q => q.1 * dpValue term q.2.2 steps q.2.1 inv).sum

/-- A terminal-value rule affine in the terminal price: `A i + B i * p`.
The default must-be-empty rule is the case `A = B = 0`. -/
def affineTerm (a b : ℚ → ℚ) : ℚ → ℚ → ℚ :=
  fun p i => a i + b i * p

/-!
## Interpolation lemmas
-/

/-- Strict ascending order of breakpoint abscissae, as a pairwise relation. -/
def AscendingFst {β : Type} : List (ℚ × β) → Prop :=
  List.Pairwise fun u v => u.1 < v.1

/-- At or below the first point, `interpPts` clamps to the first value. -/
theorem interpPts_clamp_low (x0 y0 : ℚ) (rest : List (ℚ × ℚ)) (x : ℚ)
    (h : x ≤ x0) : interpPts ((x0, y0) :: rest) x = y0 := by
  cases rest with
  | nil => rfl
  | cons hd tl =>
    obtain ⟨x1, y1⟩ := hd
    simp [interpPts, h]

/-- `lerp` through two points with distinct abscissae is exact at the second
point. -/
theorem lerp_at_right (x0 y0 x1 y1 : ℚ) (h : x0 < x1) :
    lerp x0 y0 x1 y1 x1 = y1 := by
  have hne : x1 - x0 ≠ 0 := sub_ne_zero.mpr (ne_of_gt h)
  rw [lerp, mul_div_assoc, div_self hne, mul_one]
  ring

/-- `interpPts` reproduces the stored value exactly at any node of a
strictly ascending point list. -/
theorem interpPts_at_node (pts : List (ℚ × ℚ)) (hs : AscendingFst pts)
    (x y : ℚ) (hm : (x, y) ∈ pts) : interpPts pts x = y := by
  induction pts with
  | nil => cases hm
  | cons hd tl ih =>
    obtain ⟨a, ya⟩ := hd
    rcases List.mem_cons.mp hm with heq | hmem
    · cases heq
      exact interpPts_clamp_low x y tl x le_rfl
    · have hax : a < x := by
        have := (List.pairwise_cons.mp hs).1 (x, y) hmem
        simpa using this
      have htail : AscendingFst tl := (List.pairwise_cons.mp hs).2
      cases tl with
      | nil => cases hmem
      | cons hd2 tl2 =>
        obtain ⟨b, yb⟩ := hd2
        rcases List.mem_cons.mp hmem with heq2 | hmem2
        · cases heq2
          simp only [interpPts, not_le.mpr hax, if_false, le_rfl, if_true]
          exact lerp_at_right a ya x y hax
        · have hbx : b < x := by
            have := (List.pairwise_cons.mp htail).1 (x, y) hmem2
            simpa using this
          have hrec := ih htail hmem
          simp only [interpPts, not_le.mpr hax, if_false, not_le.mpr hbx]
          exact hrec

/-- At or above the last point of a strictly ascending list, `interpPts`
clamps to the last value. -/
theorem interpPts_clamp_high (pts : List (ℚ × ℚ)) (hs : AscendingFst pts)
    (xl yl x : ℚ) (hlast : pts.getLast? = some (xl, yl)) (h : xl ≤ x) :
    interpPts pts x = yl := by
  induction pts with
  | nil => cases hlast
  | cons hd tl ih =>
    obtain ⟨a, ya⟩ := hd
    cases tl with
    | nil =>
      simp only [List.getLast?_singleton, Option.some.injEq] at hlast
      cases hlast
      rfl
    | cons hd2 tl2 =>
      obtain ⟨b, yb⟩ := hd2
      have hpc := List.pairwise_cons.mp hs
      have hab : a < b := by
        have := hpc.1 (b, yb) (List.mem_cons_self _ _)
        simpa using this
      have htail : AscendingFst ((b, yb) :: tl2) := hpc.2
      have hlast2 : ((b, yb) :: tl2).getLast? = some (xl, yl) := by
        simpa [List.getLast?_cons_cons] using hlast
      have hbxl : b ≤ xl := by
        cases tl2 with
        | nil =>
          simp only [List.getLast?_singleton, Option.some.injEq] at hlast2
          cases hlast2
          exact le_refl _
        | cons hd3 tl3 =>
          have hmem : (xl, yl) ∈ hd3 :: tl3 := by
            apply List.mem_of_mem_getLast?
            simpa [List.getLast?_cons_cons] using hlast2
          have := (List.pairwise_cons.mp htail).1 (xl, yl) hmem
          exact le_of_lt (by simpa using this)
      have hax : ¬ x ≤ a := not_le.mpr (lt_of_lt_of_le hab (le_trans hbxl h))
      by_cases hxb : x ≤ b
      · have hxeqb : x = b := le_antisymm hxb (le_trans hbxl h)
        cases tl2 with
        | nil =>
          simp only [List.getLast?_singleton, Option.some.injEq] at hlast2
          cases hlast2
          simp only [interpPts, hax, if_false, hxb, if_true]
          rw [hxeqb]
          exact lerp_at_right _ _ _ _ hab
        | cons hd3 tl3 =>
          exfalso
          have hmem : (xl, yl) ∈ hd3 :: tl3 := by
            apply List.mem_of_mem_getLast?
            simpa [List.getLast?_cons_cons] using hlast2
          have hbl : b < xl := by
            have := (List.pairwise_cons.mp htail).1 (xl, yl) hmem
            simpa using this
          have : b < b := lt_of_lt_of_le hbl (le_trans h (hxeqb ▸ le_refl x))
          exact lt_irrefl b this
      · simp only [interpPts, hax, if_false, hxb]
        exact ih htail hlast2

/-- Strictly between two adjacent points of a strictly ascending list,
`interpPts` returns the linear interpolation of the bracketing pair (stated
with `x ≤ b` so that the right node is covered consistently as well). -/
theorem interpPts_bracket (l1 : List (ℚ × ℚ)) (a ya b yb x : ℚ)
    (l2 : List (ℚ × ℚ))
    (hs : AscendingFst (l1 ++ (a, ya) :: (b, yb) :: l2))
    (hax : a < x) (hxb : x ≤ b) :
    interpPts (l1 ++ (a, ya) :: (b, yb) :: l2) x = lerp a ya b yb x := by
  induction l1 with
  | nil =>
    simp only [List.nil_append, interpPts, not_le.mpr hax, if_false, hxb, if_true]
  | cons hd tl ih =>
    obtain ⟨c, yc⟩ := hd
    have hpc := List.pairwise_cons.mp (by simpa only [List.cons_append] using hs)
    have hca : c < a := by
      have := hpc.1 (a, ya) (by simp)
      simpa using this
    have hcx : ¬ x ≤ c := not_le.mpr (lt_trans hca hax)
    have htail : AscendingFst (tl ++ (a, ya) :: (b, yb) :: l2) := hpc.2
    have hrec := ih htail
    cases tl with
    | nil =>
      simp only [List.nil_append] at hrec
      simp only [List.cons_append, List.nil_append, interpPts, hcx, if_false,
        not_le.mpr hax, hxb, if_true]
    | cons hd2 tl2 =>
      obtain ⟨e, ye⟩ := hd2
      have hea : e < a := by
        have := (List.pairwise_cons.mp (by
          simpa only [List.cons_append] using htail)).1 (a, ya) (by simp)
        simpa using this
      have hex : ¬ x ≤ e := not_le.mpr (lt_trans hea hax)
      simp only [List.cons_append, interpPts, hcx, if_false, hex]
      simpa only [List.cons_append] using hrec

/-!
## Dynamic-programming lemmas
-/

/-- Every member of a list is at most its `maxList`. -/
theorem le_maxList (l : List ℚ) (a : ℚ) (hm : a ∈ l) : a ≤ maxList l := by
  induction l with
  | nil => cases hm
  | cons hd tl ih =>
    cases tl with
    | nil =>
      rcases List.mem_singleton.mp hm with rfl
      exact le_refl _
    | cons hd2 tl2 =>
      rcases List.mem_cons.mp hm with rfl | hmem
      · exact le_max_left _ _
      · exact le_trans (ih hmem) (le_max_right _ _)

/-- `argmaxBy` picks a member of a nonempty list. -/
theorem argmaxBy_mem (f : ℚ → ℚ) (l : List ℚ) (hne : l ≠ []) :
    argmaxBy f l ∈ l := by
  induction l with
  | nil => exact absurd rfl hne
  | cons hd tl ih =>
    cases tl with
    | nil => exact List.mem_singleton.mpr rfl
    | cons hd2 tl2 =>
      by_cases h : f (argmaxBy f (hd2 :: tl2)) ≤ f hd
      · simp only [argmaxBy, h, if_true]
        exact List.mem_cons_self _ _
      · simp only [argmaxBy, h, if_false]
        exact List.mem_cons_of_mem _ (ih (List.cons_ne_nil _ _))

/-- `argmaxBy` attains the maximum of the mapped list. -/
theorem argmaxBy_eq_maxList (f : ℚ → ℚ) (l : List ℚ) (hne : l ≠ []) :
    f (argmaxBy f l) = maxList (l.map f) := by
  induction l with
  | nil => exact absurd rfl hne
  | cons hd tl ih =>
    cases tl with
    | nil => rfl
    | cons hd2 tl2 =>
      have hrec := ih (List.cons_ne_nil _ _)
      simp only [List.map_cons] at hrec
      by_cases h : f (argmaxBy f (hd2 :: tl2)) ≤ f hd
      · simp only [argmaxBy, h, if_true, List.map_cons, maxList]
        rw [max_eq_left]
        rw [← hrec]
        exact h
      · simp only [argmaxBy, h, if_false, List.map_cons, maxList]
        rw [max_eq_right]
        · exact hrec
        · rw [← hrec]
          exact le_of_not_le h

/-- The decision sequence selected by the backward induction is feasible. -/
theorem dpPlan_feasible (term : ℚ → ℚ → ℚ) (termF : ℚ) (steps : List Step)
    (hne : ∀ s ∈ steps, ∀ i, s.decisions i ≠ []) :
    ∀ (ps : List ℚ) (inv : ℚ), planFeasible (dpPlan term termF steps ps inv) steps inv := by
  induction steps with
  | nil =>
    intro ps inv
    trivial
  | cons s rest ih =>
    intro ps inv
    have hs : ∀ i, s.decisions i ≠ [] := hne s (List.mem_cons_self _ _)
    have hrest : ∀ u ∈ rest, ∀ i, u.decisions i ≠ [] :=
      fun u hu => hne u (List.mem_cons_of_mem _ hu)
    simp only [dpPlan, planFeasible, List.headD_cons, List.tail_cons]
    constructor
    · exact argmaxBy_mem _ _ (hs inv)
    · exact ih hrest ps.tail _

/-- Replaying the backward induction's own decisions achieves the
backward-induction value (spec §4.3: no value leakage). -/
theorem dpPlan_planValue (term : ℚ → ℚ → ℚ) (termF : ℚ) (steps : List Step)
    (hne : ∀ s ∈ steps, ∀ i, s.decisions i ≠ []) :
    ∀ (ps : List ℚ) (inv : ℚ),
      planValue term termF (dpPlan term termF steps ps inv) steps ps inv
        = dpValue term termF steps ps inv := by
  induction steps with
  | nil =>
    intro ps inv
    rfl
  | cons s rest ih =>
    intro ps inv
    have hs : ∀ i, s.decisions i ≠ [] := hne s (List.mem_cons_self _ _)
    have hrest : ∀ u ∈ rest, ∀ i, u.decisions i ≠ [] :=
      fun u hu => hne u (List.mem_cons_of_mem _ hu)
    simp only [dpPlan, planValue, List.headD_cons, List.tail_cons, dpValue]
    rw [ih hrest]
    exact (argmaxBy_eq_maxList _ _ (hs inv)).symm ▸ rfl

/-- Any feasible decision sequence is dominated by the backward-induction
value, whatever the prices (the trajectory is price-independent). -/
theorem planValue_le_dpValue (term : ℚ → ℚ → ℚ) (termF : ℚ) (steps : List Step) :
    ∀ (ds ps : List ℚ) (inv : ℚ), planFeasible ds steps inv →
      planValue term termF ds steps ps inv ≤ dpValue term termF steps ps inv := by
  induction steps with
  | nil =>
    intro ds ps inv _
    exact le_refl _
  | cons s rest ih =>
    intro ds ps inv hf
    obtain ⟨hmem, htail⟩ := hf
    simp only [planValue, dpValue]
    have hrec := ih ds.tail ps.tail (s.next inv (ds.headD 0)) htail
    calc stepCashflow s (ps.headD 0) inv (ds.headD 0) +
          planValue term termF ds.tail rest ps.tail (s.next inv (ds.headD 0))
        ≤ stepCashflow s (ps.headD 0) inv (ds.headD 0) +
          dpValue term termF rest ps.tail (s.next inv (ds.headD 0)) := by linarith
      _ ≤ maxList ((s.decisions inv).map fun d =>
            stepCashflow s (ps.headD 0) inv d +
              dpValue term termF rest ps.tail (s.next inv d)) := by
          apply le_maxList
          exact List.mem_map_of_mem _ hmem

/-- Sums of pointwise sums of mapped lists split. -/
theorem sumMapAdd {α : Type} (l : List α) (f g : α → ℚ) :
    (l.map fun q => f q + g q).sum = (l.map f).sum + (l.map g).sum := by
  induction l with
  | nil => simp
  | cons hd tl ih =>
    simp only [List.map_cons, List.sum_cons, ih]
    ring

/-- Constant factors pull out of sums of mapped lists. -/
theorem sumMapMulLeft {α : Type} (l : List α) (c : ℚ) (f : α → ℚ) :
    (l.map fun q => c * f q).sum = c * (l.map f).sum := by
  induction l with
  | nil => simp
  | cons hd tl ih =>
    simp only [List.map_cons, List.sum_cons, ih]
    ring

/-- `headD` is `getD` at index zero. -/
theorem headD_eq_getD (l : List ℚ) : l.headD 0 = l.getD 0 0 := by
  cases l <;> rfl

/-- `getD` on a tail shifts the index. -/
theorem tail_getD (l : List ℚ) (t : ℕ) : l.tail.getD t 0 = l.getD (t + 1) 0 := by
  cases l <;> rfl

/-- The per-path tails of a path ensemble: each path keeps its weight and
terminal price but drops its first period price. -/
def tailPaths (paths : List (ℚ × (List ℚ × ℚ))) : List (ℚ × (List ℚ × ℚ)) :=
  paths.map fun q => (q.1, (q.2.1.tail, q.2.2))

/-- The probability-weighted average of the value of a FIXED decision
sequence over a martingale path ensemble equals its value on the forward
curve, for terminal rules affine in the terminal price.  This is the
linearity step behind "optionality is non-negative": cashflows are affine in
prices and the inventory trajectory of a fixed decision sequence does not
depend on prices. -/
theorem weighted_planValue (a b : ℚ → ℚ) (steps : List Step) :
    ∀ (paths : List (ℚ × (List ℚ × ℚ))) (F : List ℚ) (termF : ℚ),
    (paths.map fun q => q.1).sum = 1 →
    (∀ t, (paths.map fun q => q.1 * q.2.1.getD t 0).sum = F.getD t 0) →
    (paths.map fun q => q.1 * q.2.2).sum = termF →
    ∀ (ds : List ℚ) (inv : ℚ),
    (paths.map fun q =>
        q.1 * planValue (affineTerm a b) q.2.2 ds steps q.2.1 inv).sum
      = planValue (affineTerm a b) termF ds steps F inv := by
  induction steps with
  | nil =>
    intro paths F termF hw hmart hterm ds inv
    simp only [planValue, affineTerm]
    have h1 : (paths.map fun q => q.1 * (a inv + b inv * q.2.2)).sum
        = (paths.map fun q => a inv * q.1 + b inv * (q.1 * q.2.2)).sum := by
      congr 1
      apply List.map_congr_left
      intro q _
      ring
    rw [h1, sumMapAdd, sumMapMulLeft, sumMapMulLeft, hw, hterm]
    ring
  | cons s rest ih =>
    intro paths F termF hw hmart hterm ds inv
    have hmartTail : ∀ t, ((tailPaths paths).map fun q => q.1 * q.2.1.getD t 0).sum
        = F.tail.getD t 0 := by
      intro t
      have h1 : ((tailPaths paths).map fun q => q.1 * q.2.1.getD t 0)
          = paths.map fun q => q.1 * q.2.1.getD (t + 1) 0 := by
        simp only [tailPaths, List.map_map]
        apply List.map_congr_left
        intro q _
        simp only [Function.comp]
        rw [tail_getD]
      rw [h1, tail_getD, hmart]
    have hwTail : ((tailPaths paths).map fun q => q.1).sum = 1 := by
      simp only [tailPaths, List.map_map]
      simpa only [Function.comp] using hw
    have htermTail : ((tailPaths paths).map fun q => q.1 * q.2.2).sum = termF := by
      simp only [tailPaths, List.map_map]
      simpa only [Function.comp] using hterm
    have hrec := ih (tailPaths paths) F.tail termF hwTail hmartTail htermTail
      ds.tail (s.next inv (ds.headD 0))
    have hsplit : (paths.map fun q =>
        q.1 * planValue (affineTerm a b) q.2.2 ds (s :: rest) q.2.1 inv).sum
        = (paths.map fun q =>
            (-(s.disc * s.vol inv (ds.headD 0))) * (q.1 * q.2.1.getD 0 0) +
            ((-(s.disc * s.cost inv (ds.headD 0))) * q.1 +
              q.1 * planValue (affineTerm a b) q.2.2 ds.tail rest q.2.1.tail
                (s.next inv (ds.headD 0)))).sum := by
      congr 1
      apply List.map_congr_left
      intro q _
      simp only [planValue, stepCashflow, headD_eq_getD]
      ring
    rw [hsplit, sumMapAdd, sumMapMulLeft, sumMapAdd, sumMapMulLeft]
    have h0 : (paths.map fun q => q.1 * q.2.1.getD 0 0).sum = F.getD 0 0 := hmart 0
    have htl : (paths.map fun q =>
        q.1 * planValue (affineTerm a b) q.2.2 ds.tail rest q.2.1.tail
          (s.next inv (ds.headD 0))).sum
        = planValue (affineTerm a b) termF ds.tail rest F.tail
            (s.next inv (ds.headD 0)) := by
      rw [← hrec]
      simp only [tailPaths, List.map_map]
      congr 1
    rw [h0, hw, htl]
    simp only [planValue, stepCashflow, headD_eq_getD]
    ring

/-- Full (per-path optimal) NPV dominates intrinsic NPV for terminal rules
affine in the terminal price, over any martingale path ensemble with
nonnegative weights. -/
theorem fullNpv_ge_intrinsicNpv (a b : ℚ → ℚ) (steps : List Step)
    (F : List ℚ) (termF : ℚ) (paths : List (ℚ × (List ℚ × ℚ))) (inv : ℚ)
    (hw : (paths.map fun q => q.1).sum = 1)
    (hwpos : ∀ q ∈ paths, 0 ≤ q.1)
    (hmart : ∀ t, (paths.map fun q => q.1 * q.2.1.getD t 0).sum = F.getD t 0)
    (hterm : (paths.map fun q => q.1 * q.2.2).sum = termF)
    (hne : ∀ s ∈ steps, ∀ i, s.decisions i ≠ []) :
    intrinsicNpv (affineTerm a b) steps F termF inv
      ≤ fullNpv (affineTerm a b) steps paths inv := by
  have h1 : intrinsicNpv (affineTerm a b) steps F termF inv
      = planValue (affineTerm a b) termF
          (dpPlan (affineTerm a b) termF steps F inv) steps F inv :=
    (dpPlan_planValue _ _ steps hne F inv).symm
  have hfeas : planFeasible (dpPlan (affineTerm a b) termF steps F inv) steps inv :=
    dpPlan_feasible _ _ steps hne F inv
  have h2 : planValue (affineTerm a b) termF
      (dpPlan (affineTerm a b) termF steps F inv) steps F inv
      = (paths.map fun q => q.1 * planValue (affineTerm a b) q.2.2
          (dpPlan (affineTerm a b) termF steps F inv) steps q.2.1 inv).sum :=
    (weighted_planValue a b steps paths F termF hw hmart hterm _ inv).symm
  have h3 : (paths.map fun q => q.1 * planValue (affineTerm a b) q.2.2
        (dpPlan (affineTerm a b) termF steps F inv) steps q.2.1 inv).sum
      ≤ (paths.map fun q =>
          q.1 * dpValue (affineTerm a b) q.2.2 steps q.2.1 inv).sum := by
    apply List.sum_le_sum
    intro q hq
    apply mul_le_mul_of_nonneg_left _ (hwpos q hq)
    exact planValue_le_dpValue _ _ steps _ q.2.1 inv hfeas
  calc intrinsicNpv (affineTerm a b) steps F termF inv
      = (paths.map fun q => q.1 * planValue (affineTerm a b) q.2.2
          (dpPlan (affineTerm a b) termF steps F inv) steps q.2.1 inv).sum := by
        rw [h1, h2]
    _ ≤ fullNpv (affineTerm a b) steps paths inv := h3

/-!
## Period marshalling

`_from_datetime_like` and `_net_time_period_to_pandas_period` convert
between pandas periods and .NET time periods through their calendar
components.  The pandas `Period`/`datetime` attribute access and the .NET
`TimePeriodFactory.FromDateTime` are external library behavior, modelled
here by their documented semantics: a period of a given granularity is
identified with its aligned start datetime, attribute access reads the
components of that datetime, and `FromDateTime` returns the period
containing the given datetime (flooring it to the granularity).
-/

/-- A calendar datetime as read attribute-by-attribute by
`_from_datetime_like` (`cmdty_storage.py` lines 54-63):
year, month, day, hour, minute, second. -/
structure PyDateTime where
  year : ℤ
  month : ℤ
  day : ℤ
  hour : ℤ
  minute : ℤ
  second : ℤ
deriving DecidableEq, Repr

/-- Flooring a datetime to the start of the enclosing period of the given
granularity. -/
def floorToFreq : NetPeriodType → PyDateTime → PyDateTime
  | NetPeriodType.quarterHour, d =>
    ⟨d.year, d.month, d.day, d.hour, 15 * (d.minute / 15), 0⟩
  | NetPeriodType.halfHour, d =>
    ⟨d.year, d.month, d.day, d.hour, 30 * (d.minute / 30), 0⟩
  | NetPeriodType.hour, d => ⟨d.year, d.month, d.day, d.hour, 0, 0⟩
  | NetPeriodType.day, d => ⟨d.year, d.month, d.day, 0, 0, 0⟩
  | NetPeriodType.month, d => ⟨d.year, d.month, 1, 0, 0, 0⟩
  | NetPeriodType.quarter, d => ⟨d.year, 3 * ((d.month - 1) / 3) + 1, 1, 0, 0, 0⟩

/-- A pandas `Period` of a given granularity, represented by its aligned
start datetime (`pd.Period(start_datetime, freq=freq)` of
`_net_time_period_to_pandas_period`). -/
def pandasPeriodOfDatetime (f : NetPeriodType) (d : PyDateTime) : PyDateTime :=
  floorToFreq f d

/-- `_from_datetime_like` (`cmdty_storage.py` lines 54-63): builds a .NET
`DateTime` from the year/month/day (and hour/minute/second when present)
attributes of the argument and passes it to
`TimePeriodFactory.FromDateTime[time_period_type]`.  For a pandas period
the attributes are those of its start datetime, and `FromDateTime` floors
to the period containing the datetime; the .NET period is represented by
its start datetime. -/
def from_datetime_like (datetime_like : PyDateTime)
    (time_period_type : NetPeriodType) : PyDateTime :=
  floorToFreq time_period_type datetime_like

/-- `_net_time_period_to_pandas_period` (`cmdty_storage.py` lines 70-72):
takes `net_time_period.Start` and builds `pd.Period(start_datetime, freq)`. -/
def net_time_period_to_pandas_period (net_time_period : PyDateTime)
    (freq : NetPeriodType) : PyDateTime :=
  pandasPeriodOfDatetime freq net_time_period

/-- Flooring to a granularity is idempotent. -/
theorem floorToFreq_idem (f : NetPeriodType) (d : PyDateTime) :
    floorToFreq f (floorToFreq f d) = floorToFreq f d := by
  cases f <;> simp [floorToFreq, PyDateTime.mk.injEq]

/-!
## Accessor operations as state transformers

The public accessors of `CmdtyStorage` (`cmdty_storage.py` lines 233-306)
are embedded as state-passing operations: each returns its value together
with the (possibly updated) storage object, translated from the method
bodies, which contain reads only.
-/

/-- One public operation on a `CmdtyStorage` object. -/
inductive StorageOp where
  | getFreq
  | getMustBeEmptyAtEnd
  | getStartPeriod
  | getEndPeriod
  | getInjectWithdrawRange (p : ℤ) (inv : ℚ)
  | getMinInventory (p : ℤ)
  | getMaxInventory (p : ℤ)
  | getInjectionCost (p : ℤ) (inv vol : ℚ)
  | getCmdtyConsumedInject (p : ℤ) (inv vol : ℚ)
  | getWithdrawalCost (p : ℤ) (inv vol : ℚ)
  | getCmdtyConsumedWithdraw (p : ℤ) (inv vol : ℚ)
  | getTerminalStorageNpv (price inv : ℚ)
  | getInventoryPcntLoss (p : ℤ)
  | getInventoryCost (p : ℤ) (inv : ℚ)

/-- The value returned by a public operation. -/
inductive OpValue where
  | ofString : String → OpValue
  | ofBool : Bool → OpValue
  | ofInt : ℤ → OpValue
  | ofRat : ℚ → OpValue
  | ofRange : InjectWithdrawRange → OpValue

/-- Runs one public operation: the returned pair is the operation's value
and the object state after the call.  Each branch is the embedding of the
corresponding Python method body; none of them assigns to `self`, so each
returns the state it received. -/
def runOp (s : CmdtyStorage) : StorageOp → OpValue × CmdtyStorage
  | .getFreq => (.ofString s.freq, s)
  | .getMustBeEmptyAtEnd => (.ofBool s.must_be_empty_at_end, s)
  | .getStartPeriod => (.ofInt s.start_period, s)
  | .getEndPeriod => (.ofInt s.end_period, s)
  | .getInjectWithdrawRange p inv => (.ofRange (s.inject_withdraw_range p inv), s)
  | .getMinInventory p => (.ofRat (s.min_inventory p), s)
  | .getMaxInventory p => (.ofRat (s.max_inventory p), s)
  | .getInjectionCost p inv vol => (.ofRat (s.injection_cost p inv vol), s)
  | .getCmdtyConsumedInject p inv vol => (.ofRat (s.cmdty_consumed_inject p inv vol), s)
  | .getWithdrawalCost p inv vol => (.ofRat (s.withdrawal_cost p inv vol), s)
  | .getCmdtyConsumedWithdraw p inv vol => (.ofRat (s.cmdty_consumed_withdraw p inv vol), s)
  | .getTerminalStorageNpv price inv => (.ofRat (s.terminal_storage_npv price inv), s)
  | .getInventoryPcntLoss p => (.ofRat (s.inventory_pcnt_loss p), s)
  | .getInventoryCost p inv => (.ofRat (s.inventory_cost p inv), s)

/-- The object state after running a sequence of public operations. -/
def runOps (s : CmdtyStorage) (ops : List StorageOp) : CmdtyStorage :=
  ops.foldl (fun st op => (runOp st op).2) s

/-- A single public operation leaves the object state unchanged. -/
theorem runOp_state (s : CmdtyStorage) (op : StorageOp) : (runOp s op).2 = s := by
  cases op <;> rfl

/-- Any sequence of public operations leaves the object state unchanged. -/
theorem runOps_state (ops : List StorageOp) :
    ∀ s : CmdtyStorage, runOps s ops = s := by
  induction ops with
  | nil => intro s; rfl
  | cons op rest ih =>
    intro s
    calc runOps s (op :: rest) = runOps (runOp s op).2 rest := rfl
      _ = runOps s rest := by rw [runOp_state]
      _ = s := ih s

/-- The backward induction selects exactly one decision per period. -/
theorem dpPlan_length (term : ℚ → ℚ → ℚ) (termF : ℚ) (steps : List Step) :
    ∀ (ps : List ℚ) (inv : ℚ), (dpPlan term termF steps ps inv).length = steps.length := by
  induction steps with
  | nil => intro ps inv; rfl
  | cons s rest ih =>
    intro ps inv
    simp only [dpPlan, List.length_cons]
    rw [ih]

/-- The consumed-volume replay produces exactly one entry per period. -/
theorem planConsumed_length (steps : List Step) :
    ∀ (ds : List ℚ) (inv : ℚ), (planConsumed steps ds inv).length = steps.length := by
  induction steps with
  | nil => intro ds inv; rfl
  | cons s rest ih =>
    intro ds inv
    simp only [planConsumed, List.length_cons]
    rw [ih]

/-!
## Claim theorems
-/

/-- The ratchet list of `TestCmdtyStorage.test_initializer`
(`tests/test_cmdty_storage.py` lines 33-40): one ratchet effective
2019-08-28 with breakpoints (0.0, −150.0, 255.2) and (2000.0, −200.0,
175.0). -/
def testConstraints : List (ℤ × RatesByInventory) :=
  [(dayNumber 2019 8 28, [(0, -150, 255.2), (2000, -200, 175)])]

/-- C1: for the daily storage built from 2019-08-28 to 2019-09-25 with the
single ratchet effective 2019-08-28 having breakpoints
(inventory 0.0: min −150.0, max 255.2) and (inventory 2000.0: min −200.0,
max 175.0), `inject_withdraw_range` at period 2019-08-29 with inventory
1000.0 returns exactly min rate −175.0 and max rate (255.2 + 175.0)/2 =
215.1, the linear interpolation at the midpoint between the two
breakpoints. -/
theorem c1_inject_withdraw_range_midpoint :
    (cmdtyStorageInit "D" (dayNumber 2019 8 28) (dayNumber 2019 9 25)
        testConstraints 0.015 0.02 (some 0.0001) (some 0.000088)
        none none none).map
      (fun s => s.inject_withdraw_range (dayNumber 2019 8 29) 1000)
    = .ok ⟨-175, (255.2 + 175) / 2⟩ := by
  have h1 : ((255.2 : ℚ) + 175) / 2 = 2151 / 10 := by norm_num
  rw [h1]
  simp [cmdtyStorageInit, FREQ_TO_PERIOD_TYPE, dayNumber, testConstraints,
    bpsAscending, bpsMinLeMax, Except.map, CmdtyStorage.inject_withdraw_range,
    effectiveRatchet, lookupPeriodType]
  norm_num [lerp, effectiveRatchet, interpPts]

/-- C2: `intrinsic_value` fails with the frequency-mismatch error whenever
the storage's and curve's granularity strings differ — before any valuation
computation, as witnessed by the error being independent of every other
argument — and never raises that error when the granularities agree. -/
theorem c2_frequency_mismatch (s : CmdtyStorage) (inv : ℚ)
    (curve : ForwardCurve) (df : ℤ → ℚ) (g : ℕ) :
    (s.freq ≠ curve.freqstr →
      intrinsic_value s inv curve df g = .error .frequencyMismatch)
    ∧ (s.freq = curve.freqstr →
      intrinsic_value s inv curve df g ≠ .error .frequencyMismatch) := by
  constructor
  · intro h
    rw [intrinsic_value, if_pos h]
  · intro h
    rw [intrinsic_value, if_neg (by simp [h])]
    split
    · simp
    · rw [intrinsicCalc]
      split
      · simp
      · simp

/-- The storage object of `TestCmdtyStorage.test_initializer`, as built by
`CmdtyStorage.__init__` from `testConstraints`. -/
def testStorage : CmdtyStorage :=
  { freq := "D"
    storage_start := dayNumber 2019 8 28
    storage_end := dayNumber 2019 9 25
    constraints := testConstraints
    per_unit_injection_cost := 0.015
    per_unit_withdrawal_cost := 0.02
    consumed_inject_pcnt := some 0.0001
    consumed_withdraw_pcnt := some 0.000088
    terminal_npv_fn := none
    inventory_loss_pcnt := none
    inventory_cost_per_unit := none }

/-- Witness for C2, at the test storage against an empty monthly curve and
an empty daily curve. -/
theorem c2_frequency_mismatch_witness :
    intrinsic_value testStorage 0 ⟨"M", []⟩ (fun _ => 1) 100
        = .error .frequencyMismatch
    ∧ intrinsic_value testStorage 0 ⟨"D", []⟩ (fun _ => 1) 100
        ≠ .error .frequencyMismatch := by
  constructor
  · exact (c2_frequency_mismatch testStorage 0 ⟨"M", []⟩ (fun _ => 1) 100).1
      (by simp [testStorage])
  · exact (c2_frequency_mismatch testStorage 0 ⟨"D", []⟩ (fun _ => 1) 100).2 rfl

/-- A single engine step with no choice: the only decision is zero, no
volume, no cost, unit discount. -/
def cexStep : Step :=
  { decisions := fun _ => [0]
    next := fun inv _ => inv
    vol := fun _ _ => 0
    cost := fun _ _ => 0
    disc := 1 }

/-- A terminal-value rule that is nonlinear (concave) in price. -/
def cexTerm : ℚ → ℚ → ℚ := fun p _ => -(p * p)

/-- A two-path martingale ensemble: prices 0 and 2 with weight 1/2 each,
averaging to the forward price 1. -/
def cexPaths : List (ℚ × (List ℚ × ℚ)) := [(1/2, ([0], 0)), (1/2, ([2], 2))]

/-- Counterexample to C3 as stated: with a terminal-value rule that is
nonlinear in the terminal price (here −p²), the full NPV can be strictly
below the intrinsic NPV even on a martingale ensemble with nonnegative
weights — the claim's universal quantification over all valid input sets
(which include storages with arbitrary terminal-value functions) fails. -/
theorem c3_full_ge_intrinsic_counterexample :
    ¬ (∀ (term : ℚ → ℚ → ℚ) (steps : List Step) (F : List ℚ) (termF : ℚ)
        (paths : List (ℚ × (List ℚ × ℚ))) (inv : ℚ),
        (paths.map fun q => q.1).sum = 1 →
        (∀ q ∈ paths, 0 ≤ q.1) →
        (∀ t, (paths.map fun q => q.1 * q.2.1.getD t 0).sum = F.getD t 0) →
        (paths.map fun q => q.1 * q.2.2).sum = termF →
        (∀ s ∈ steps, ∀ i, s.decisions i ≠ []) →
        intrinsicNpv term steps F termF inv ≤ fullNpv term steps paths inv) := by
  intro h
  have hc := h cexTerm [cexStep] [1] 1 cexPaths 0
    (by norm_num [cexPaths])
    (by norm_num [cexPaths])
    (by
      intro t
      cases t with
      | zero => norm_num [cexPaths]
      | succ n => simp [cexPaths, List.getD])
    (by norm_num [cexPaths])
    (by
      intro s hs i
      simp only [List.mem_singleton] at hs
      subst hs
      simp [cexStep])
  norm_num [intrinsicNpv, fullNpv, dpValue, maxList, cexTerm, cexStep, cexPaths,
    stepCashflow] at hc

/-- C3 (amended): for every step list, forward curve and terminal price,
every martingale path ensemble (nonnegative weights summing to one whose
per-period weighted prices reproduce the forward curve), every starting
inventory, and every terminal-value rule AFFINE in the terminal price — in
particular the default must-be-empty rule — the full NPV of the extrinsic
valuation is at least the intrinsic NPV: optionality is non-negative.  For
terminal rules nonlinear in price the inequality can fail (see the
counterexample). -/
theorem c3_full_ge_intrinsic (a b : ℚ → ℚ) (steps : List Step)
    (F : List ℚ) (termF : ℚ) (paths : List (ℚ × (List ℚ × ℚ))) (inv : ℚ)
    (hw : (paths.map fun q => q.1).sum = 1)
    (hwpos : ∀ q ∈ paths, 0 ≤ q.1)
    (hmart : ∀ t, (paths.map fun q => q.1 * q.2.1.getD t 0).sum = F.getD t 0)
    (hterm : (paths.map fun q => q.1 * q.2.2).sum = termF)
    (hne : ∀ s ∈ steps, ∀ i, s.decisions i ≠ []) :
    intrinsicNpv (affineTerm a b) steps F termF inv
      ≤ fullNpv (affineTerm a b) steps paths inv :=
  fullNpv_ge_intrinsicNpv a b steps F termF paths inv hw hwpos hmart hterm hne

/-- Witness for C3 at the one-step ensemble with the zero (must-be-empty
style) terminal rule. -/
theorem c3_full_ge_intrinsic_witness :
    intrinsicNpv (affineTerm (fun _ => 0) (fun _ => 0)) [cexStep] [1] 1 0
      ≤ fullNpv (affineTerm (fun _ => 0) (fun _ => 0)) [cexStep] cexPaths 0 := by
  apply c3_full_ge_intrinsic (fun _ => 0) (fun _ => 0) [cexStep] [1] 1 cexPaths 0
  · norm_num [cexPaths]
  · norm_num [cexPaths]
  · intro t
    cases t with
    | zero => norm_num [cexPaths]
    | succ n => simp [cexPaths, List.getD]
  · norm_num [cexPaths]
  · intro s hs i
    simp only [List.mem_singleton] at hs
    subst hs
    simp [cexStep]

/-- Counterexample to C4 as stated: the result of a successful
`intrinsic_value` call carries no intrinsic/extrinsic NPV scalars and no
price-delta profile — the `IntrinsicValuationResults` named tuple declares
only `npv`, `decision_profile` and `cmdty_consumed`. -/
theorem c4_returns_counterexample :
    ¬ ("intrinsic_npv" ∈ intrinsicValuationResultsFields
        ∧ "extrinsic_npv" ∈ intrinsicValuationResultsFields
        ∧ "deltas" ∈ intrinsicValuationResultsFields) := by
  intro h
  have h1 := h.1
  rw [intrinsicValuationResultsFields] at h1
  simp at h1

/-- C4 (amended): every successful `intrinsic_value` call returns exactly
one scalar (`npv`) and two period-indexed series — the decision profile and
the commodity-consumed profile — each spanning exactly the storage's active
period range; no intrinsic/extrinsic NPV split and no delta profile is
returned. -/
theorem c4_intrinsic_value_results (s : CmdtyStorage) (inv : ℚ)
    (curve : ForwardCurve) (df : ℤ → ℚ) (g : ℕ) (r : IntrinsicValuationResults)
    (h : intrinsic_value s inv curve df g = .ok r) :
    intrinsicValuationResultsFields = ["npv", "decision_profile", "cmdty_consumed"]
    ∧ r.decision_profile.map Prod.fst = s.activePeriods
    ∧ r.cmdty_consumed.map Prod.fst = s.activePeriods := by
  rw [intrinsic_value] at h
  split at h
  · cases h
  · split at h
    · cases h
    · rw [intrinsicCalc] at h
      split at h
      · cases h
      · simp only [Except.ok.injEq] at h
        subst h
        refine ⟨rfl, ?_, ?_⟩
        · apply List.map_fst_zip
          rw [dpPlan_length, List.length_map]
        · apply List.map_fst_zip
          rw [planConsumed_length, List.length_map]

/-- A minimal two-period storage: one ratchet at period 0 with breakpoints
(0, −1, 1) and (10, −2, 2), no costs, no consumption, no loss, must be
empty at end. -/
def wStorage : CmdtyStorage :=
  { freq := "D"
    storage_start := 0
    storage_end := 1
    constraints := [(0, [(0, -1, 1), (10, -2, 2)])]
    per_unit_injection_cost := 0
    per_unit_withdrawal_cost := 0
    consumed_inject_pcnt := none
    consumed_withdraw_pcnt := none
    terminal_npv_fn := none
    inventory_loss_pcnt := none
    inventory_cost_per_unit := none }

/-- A matching daily forward curve over `wStorage`'s window. -/
def wCurve : ForwardCurve := ⟨"D", [(0, 5), (1, 6)]⟩

/-- Witness for C4: a concrete successful valuation of `wStorage`. -/
theorem c4_intrinsic_value_results_witness :
    intrinsicValuationResultsFields = ["npv", "decision_profile", "cmdty_consumed"]
    ∧ (IntrinsicValuationResults.mk 0 [(0, 0)] [(0, 0)]).decision_profile.map Prod.fst
        = wStorage.activePeriods
    ∧ (IntrinsicValuationResults.mk 0 [(0, 0)] [(0, 0)]).cmdty_consumed.map Prod.fst
        = wStorage.activePeriods := by
  apply c4_intrinsic_value_results wStorage 0 wCurve (fun _ => 1) 100
  simp [intrinsic_value, intrinsicCalc, wStorage, wCurve, CmdtyStorage.activePeriods,
    CmdtyStorage.stepAt, CmdtyStorage.decisionCandidates, CmdtyStorage.inject_withdraw_range,
    effectiveRatchet, interpPts, lerp, CmdtyStorage.min_inventory, CmdtyStorage.max_inventory,
    CmdtyStorage.inventory_pcnt_loss, CmdtyStorage.injection_cost, CmdtyStorage.withdrawal_cost,
    CmdtyStorage.cmdty_consumed_inject, CmdtyStorage.cmdty_consumed_withdraw,
    CmdtyStorage.inventory_cost, CmdtyStorage.terminalRule, CmdtyStorage.terminal_storage_npv,
    ForwardCurve.priceAt, dpValue, dpPlan, planConsumed, maxList, argmaxBy, stepCashflow,
    List.range_succ, List.range_zero, List.filter, List.lookup]

/-- Counterexample to C5 as stated: the grid-point count is not received by
the storage constructor at all — it is a parameter of the valuation call.
A fully valid construction succeeds, and the valuation call on that very
storage with grid-point count 1 (< 2) then fails with the validation error,
i.e. the grid-count validation error occurs during valuation, not at
construction. -/
theorem c5_grid_validation_counterexample :
    cmdtyStorageInit "D" 0 1 [(0, [(0, -1, 1), (10, -2, 2)])] 0 0
        none none none none none = .ok wStorage
    ∧ intrinsic_value wStorage 0 wCurve (fun _ => 1) 1 = .error .validation := by
  constructor
  · simp [cmdtyStorageInit, lookupPeriodType, FREQ_TO_PERIOD_TYPE,
      bpsAscending, bpsMinLeMax, wStorage]
  · simp [intrinsic_value, wStorage, wCurve]


/-- C5 (amended): construction succeeds exactly when the frequency is
supported, the start period strictly precedes the end period, and every
ratchet has strictly ascending breakpoints with min rate ≤ max rate at each
breakpoint — it fails with a validation error precisely otherwise, at
construction time.  The grid-point-count bound (≥ 2) is instead enforced
inside the valuation call, which fails with a validation error whenever
fewer than 2 grid points are requested with a matching-frequency curve. -/
theorem c5_construction_validation (freq : String) (a e : ℤ)
    (cs : List (ℤ × RatesByInventory)) (ic wc : ℚ) (ci cw : Option ℚ)
    (t : Option (ℚ → ℚ → ℚ)) (il ico : Option ℚ) :
    ((cmdtyStorageInit freq a e cs ic wc ci cw t il ico).isOk = true ↔
      ((lookupPeriodType FREQ_TO_PERIOD_TYPE freq).isSome = true ∧ a < e ∧
        ∀ c ∈ cs, bpsAscending c.2 = true ∧ bpsMinLeMax c.2 = true))
    ∧ (∀ (s : CmdtyStorage) (inv : ℚ) (curve : ForwardCurve) (df : ℤ → ℚ)
        (g : ℕ), s.freq = curve.freqstr → g < 2 →
        intrinsic_value s inv curve df g = .error .validation) := by
  constructor
  · rw [cmdtyStorageInit]
    split
    · rename_i hfreq
      simp only [Except.isOk, Except.toBool]
      simp only [Option.isNone_iff_eq_none] at hfreq
      simp [hfreq]
    · rename_i hfreq
      simp only [Option.isNone_iff_eq_none] at hfreq
      have hfreqSome : (lookupPeriodType FREQ_TO_PERIOD_TYPE freq).isSome = true := by
        rw [Option.isSome_iff_ne_none]
        exact hfreq
      split
      · rename_i hse
        simp only [Except.isOk, Except.toBool]
        constructor
        · intro h
          cases h
        · intro h
          exact absurd h.2.1 (by omega)
      · rename_i hse
        split
        · rename_i hall
          have hall2 : (cs.all fun c => bpsAscending c.2 && bpsMinLeMax c.2) = false := by
            revert hall
            cases cs.all fun c => bpsAscending c.2 && bpsMinLeMax c.2 <;> simp
          rw [List.all_eq_false] at hall2
          simp only [Except.isOk, Except.toBool]
          constructor
          · intro h
            cases h
          · intro h
            obtain ⟨c, hc, hfail⟩ := hall2
            have hcc := h.2.2 c hc
            simp [hcc.1, hcc.2] at hfail
        · rename_i hall
          have hall2 : (cs.all fun c => bpsAscending c.2 && bpsMinLeMax c.2) = true := by
            revert hall
            cases cs.all fun c => bpsAscending c.2 && bpsMinLeMax c.2 <;> simp
          rw [List.all_eq_true] at hall2
          simp only [Except.isOk, Except.toBool, true_iff]
          refine ⟨hfreqSome, by omega, ?_⟩
          intro c hc
          have hcc := hall2 c hc
          exact ⟨(Bool.and_eq_true _ _ |>.mp hcc).1, (Bool.and_eq_true _ _ |>.mp hcc).2⟩
  · intro s inv curve df g hfr hg
    rw [intrinsic_value, if_neg (by simp [hfr]), if_pos hg]

/-- Witness for C5 at `wStorage`'s constructor arguments and a 1-point-grid
valuation call. -/
theorem c5_construction_validation_witness :
    (cmdtyStorageInit "D" 0 1 [(0, [(0, -1, 1), (10, -2, 2)])] 0 0
        none none none none none).isOk = true
    ∧ intrinsic_value wStorage 0 wCurve (fun _ => 1) 1 = .error .validation := by
  constructor
  · apply (c5_construction_validation "D" 0 1 [(0, [(0, -1, 1), (10, -2, 2)])]
      0 0 none none none none none).1.mpr
    refine ⟨by simp [lookupPeriodType, FREQ_TO_PERIOD_TYPE], by norm_num, ?_⟩
    intro c hc
    simp only [List.mem_singleton] at hc
    subst hc
    constructor
    · simp [bpsAscending]
    · simp [bpsMinLeMax]
  · exact (c5_construction_validation "D" 0 1 [(0, [(0, -1, 1), (10, -2, 2)])]
      0 0 none none none none none).2 wStorage 0 wCurve (fun _ => 1) 1 rfl
      (by norm_num)

/-- C6: the terminal-value rule has exactly the two construction-selected
variants: a storage built without a terminal-value function must be empty
at end (`must_be_empty_at_end` is true), and a storage built with a
terminal-value function `f` of (terminal price, terminal inventory) reports
`must_be_empty_at_end` false and uses `f` as its terminal value. -/
theorem c6_terminal_rule (freq : String) (a e : ℤ)
    (cs : List (ℤ × RatesByInventory)) (ic wc : ℚ) (ci cw : Option ℚ)
    (il ico : Option ℚ) (f : ℚ → ℚ → ℚ) :
    (∀ s, cmdtyStorageInit freq a e cs ic wc ci cw none il ico = .ok s →
        s.must_be_empty_at_end = true)
    ∧ (∀ s, cmdtyStorageInit freq a e cs ic wc ci cw (some f) il ico = .ok s →
        s.must_be_empty_at_end = false ∧ s.terminal_storage_npv = f) := by
  constructor
  · intro s h
    rw [cmdtyStorageInit] at h
    split at h
    · cases h
    · split at h
      · cases h
      · split at h
        · cases h
        · simp only [Except.ok.injEq] at h
          subst h
          rfl
  · intro s h
    rw [cmdtyStorageInit] at h
    split at h
    · cases h
    · split at h
      · cases h
      · split at h
        · cases h
        · simp only [Except.ok.injEq] at h
          subst h
          exact ⟨rfl, rfl⟩

/-- A terminal-value function for the C6 witness. -/
def wTermFn : ℚ → ℚ → ℚ := fun price inventory => price * inventory

/-- The `wStorage` arguments built WITH a terminal-value function. -/
def wStorageT : CmdtyStorage :=
  { freq := "D"
    storage_start := 0
    storage_end := 1
    constraints := [(0, [(0, -1, 1), (10, -2, 2)])]
    per_unit_injection_cost := 0
    per_unit_withdrawal_cost := 0
    consumed_inject_pcnt := none
    consumed_withdraw_pcnt := none
    terminal_npv_fn := some wTermFn
    inventory_loss_pcnt := none
    inventory_cost_per_unit := none }

/-- Witness for C6 at `wStorage` (no terminal function) and `wStorageT`
(with terminal function `wTermFn`). -/
theorem c6_terminal_rule_witness :
    wStorage.must_be_empty_at_end = true
    ∧ (wStorageT.must_be_empty_at_end = false
        ∧ wStorageT.terminal_storage_npv = wTermFn) := by
  constructor
  · apply (c6_terminal_rule "D" 0 1 [(0, [(0, -1, 1), (10, -2, 2)])] 0 0
      none none none none wTermFn).1 wStorage
    simp [cmdtyStorageInit, lookupPeriodType, FREQ_TO_PERIOD_TYPE,
      bpsAscending, bpsMinLeMax, wStorage]
  · apply (c6_terminal_rule "D" 0 1 [(0, [(0, -1, 1), (10, -2, 2)])] 0 0
      none none none none wTermFn).2 wStorageT
    simp [cmdtyStorageInit, lookupPeriodType, FREQ_TO_PERIOD_TYPE,
      bpsAscending, bpsMinLeMax, wStorageT]

/-- C7: for every storage, period, and inventory equal to a breakpoint of
the (strictly-ascending) ratchet effective at that period,
`inject_withdraw_range` returns exactly the min and max rates stored at
that breakpoint: interpolation is exact at nodes. -/
theorem c7_inject_withdraw_range_at_breakpoint (s : CmdtyStorage) (p : ℤ)
    (bps : RatesByInventory)
    (heff : effectiveRatchet s.constraints p = some bps)
    (hs : bps.Pairwise fun u v => u.1 < v.1)
    (x mn mx : ℚ) (hm : (x, mn, mx) ∈ bps) :
    s.inject_withdraw_range p x = ⟨mn, mx⟩ := by
  rw [CmdtyStorage.inject_withdraw_range, heff]
  simp only [InjectWithdrawRange.mk.injEq]
  constructor
  · apply interpPts_at_node
    · exact List.pairwise_map.mpr hs
    · exact List.mem_map_of_mem _ hm
  · apply interpPts_at_node
    · exact List.pairwise_map.mpr hs
    · exact List.mem_map_of_mem _ hm

/-- Witness for C7 at the test storage's upper breakpoint
(2000.0, −200.0, 175.0) on 2019-08-29. -/
theorem c7_inject_withdraw_range_at_breakpoint_witness :
    testStorage.inject_withdraw_range (dayNumber 2019 8 29) 2000 = ⟨-200, 175⟩ := by
  apply c7_inject_withdraw_range_at_breakpoint testStorage (dayNumber 2019 8 29)
    [(0, -150, 255.2), (2000, -200, 175)]
  · rw [testStorage]
    simp only [effectiveRatchet, testConstraints]
    rw [if_pos (by norm_num [dayNumber])]
    rfl
  · refine List.Pairwise.cons ?_ (List.pairwise_singleton _ _)
    intro v hv
    simp only [List.mem_singleton] at hv
    subst hv
    norm_num
  · simp

/-- C8: `inject_withdraw_range` clamps to the boundary breakpoint's stored
rates at inventories at or below the lowest / at or above the highest
breakpoint of the effective ratchet, and between two adjacent breakpoints
returns the linear interpolation of the bracketing breakpoints' rates. -/
theorem c8_inject_withdraw_range_interpolation (s : CmdtyStorage) (p : ℤ) :
    (∀ (x0 mn0 mx0 : ℚ) (rest : RatesByInventory) (inv : ℚ),
        effectiveRatchet s.constraints p = some ((x0, mn0, mx0) :: rest) →
        inv ≤ x0 →
        s.inject_withdraw_range p inv = ⟨mn0, mx0⟩)
    ∧ (∀ (bps : RatesByInventory) (xl mnl mxl inv : ℚ),
        effectiveRatchet s.constraints p = some bps →
        bps.Pairwise (fun u v => u.1 < v.1) →
        bps.getLast? = some (xl, mnl, mxl) →
        xl ≤ inv →
        s.inject_withdraw_range p inv = ⟨mnl, mxl⟩)
    ∧ (∀ (l1 l2 : RatesByInventory) (xa mna mxa xb mnb mxb inv : ℚ),
        effectiveRatchet s.constraints p
          = some (l1 ++ (xa, mna, mxa) :: (xb, mnb, mxb) :: l2) →
        (l1 ++ (xa, mna, mxa) :: (xb, mnb, mxb) :: l2).Pairwise
          (fun u v => u.1 < v.1) →
        xa < inv → inv < xb →
        s.inject_withdraw_range p inv
          = ⟨lerp xa mna xb mnb inv, lerp xa mxa xb mxb inv⟩) := by
  refine ⟨?_, ?_, ?_⟩
  · intro x0 mn0 mx0 rest inv heff hlow
    rw [CmdtyStorage.inject_withdraw_range, heff]
    simp only [InjectWithdrawRange.mk.injEq, List.map_cons]
    exact ⟨interpPts_clamp_low _ _ _ _ hlow, interpPts_clamp_low _ _ _ _ hlow⟩
  · intro bps xl mnl mxl inv heff hs hlast hge
    rw [CmdtyStorage.inject_withdraw_range, heff]
    simp only [InjectWithdrawRange.mk.injEq]
    constructor
    · apply interpPts_clamp_high _ (List.pairwise_map.mpr hs) xl mnl inv
      · rw [List.getLast?_map, hlast]
        rfl
      · exact hge
    · apply interpPts_clamp_high _ (List.pairwise_map.mpr hs) xl mxl inv
      · rw [List.getLast?_map, hlast]
        rfl
      · exact hge
  · intro l1 l2 xa mna mxa xb mnb mxb inv heff hs hlo hhi
    rw [CmdtyStorage.inject_withdraw_range, heff]
    simp only [InjectWithdrawRange.mk.injEq, List.map_append, List.map_cons]
    constructor
    · apply interpPts_bracket
      · have hmap : AscendingFst
            ((l1 ++ (xa, mna, mxa) :: (xb, mnb, mxb) :: l2).map
              fun b => (b.1, b.2.1)) := List.pairwise_map.mpr hs
        simpa only [List.map_append, List.map_cons] using hmap
      · exact hlo
      · exact le_of_lt hhi
    · apply interpPts_bracket
      · have hmap : AscendingFst
            ((l1 ++ (xa, mna, mxa) :: (xb, mnb, mxb) :: l2).map
              fun b => (b.1, b.2.2)) := List.pairwise_map.mpr hs
        simpa only [List.map_append, List.map_cons] using hmap
      · exact hlo
      · exact le_of_lt hhi

/-- Witness for C8 at the test storage: clamping below inventory 0 and
above inventory 2000, and linear interpolation at inventory 500. -/
theorem c8_inject_withdraw_range_interpolation_witness :
    testStorage.inject_withdraw_range (dayNumber 2019 8 29) (-5) = ⟨-150, 255.2⟩
    ∧ testStorage.inject_withdraw_range (dayNumber 2019 8 29) 3000 = ⟨-200, 175⟩
    ∧ testStorage.inject_withdraw_range (dayNumber 2019 8 29) 500
        = ⟨lerp 0 (-150) 2000 (-200) 500, lerp 0 255.2 2000 175 500⟩ := by
  have heff : effectiveRatchet testStorage.constraints (dayNumber 2019 8 29)
      = some [(0, -150, 255.2), (2000, -200, 175)] := by
    rw [testStorage]
    simp only [effectiveRatchet, testConstraints]
    rw [if_pos (by norm_num [dayNumber])]
    rfl
  have hpair : ([(0, -150, 255.2), (2000, -200, 175)] : RatesByInventory).Pairwise
      (fun u v => u.1 < v.1) := by
    refine List.Pairwise.cons ?_ (List.pairwise_singleton _ _)
    intro v hv
    simp only [List.mem_singleton] at hv
    subst hv
    norm_num
  refine ⟨?_, ?_, ?_⟩
  · exact (c8_inject_withdraw_range_interpolation testStorage
      (dayNumber 2019 8 29)).1 0 (-150) 255.2 [(2000, -200, 175)] (-5) heff
      (by norm_num)
  · exact (c8_inject_withdraw_range_interpolation testStorage
      (dayNumber 2019 8 29)).2.1 [(0, -150, 255.2), (2000, -200, 175)]
      2000 (-200) 175 3000 heff hpair (by rfl) (by norm_num)
  · exact (c8_inject_withdraw_range_interpolation testStorage
      (dayNumber 2019 8 29)).2.2 [] [] 0 (-150) 255.2 2000 (-200) 175 500 heff
      (by simp only [List.nil_append]; exact hpair) (by norm_num) (by norm_num)

/-- C9: a `CmdtyStorage` object is immutable after construction — every
public accessor operation returns the state it received, so after any
sequence of such calls the object equals its freshly-constructed state and
every accessor returns the same value as immediately after construction. -/
theorem c9_storage_immutable (s : CmdtyStorage) (ops : List StorageOp)
    (op : StorageOp) :
    runOps s ops = s ∧ runOp (runOps s ops) op = runOp s op := by
  have h := runOps_state ops s
  exact ⟨h, by rw [h]⟩

/-- C10: period marshalling round-trips — for every supported granularity
(a key of `FREQ_TO_PERIOD_TYPE`) and every pandas period of that
granularity (a datetime aligned to it), converting with
`_from_datetime_like` to the .NET time period and back with
`_net_time_period_to_pandas_period` yields the original period. -/
theorem c10_period_marshalling_roundtrip (freq : String) (tpt : NetPeriodType)
    (p : PyDateTime)
    (_hf : lookupPeriodType FREQ_TO_PERIOD_TYPE freq = some tpt)
    (hp : floorToFreq tpt p = p) :
    net_time_period_to_pandas_period (from_datetime_like p tpt) tpt = p := by
  calc net_time_period_to_pandas_period (from_datetime_like p tpt) tpt
      = floorToFreq tpt (floorToFreq tpt p) := rfl
    _ = floorToFreq tpt p := floorToFreq_idem tpt p
    _ = p := hp

/-- Witness for C10 at the daily period 2019-08-28. -/
theorem c10_period_marshalling_roundtrip_witness :
    net_time_period_to_pandas_period
      (from_datetime_like ⟨2019, 8, 28, 0, 0, 0⟩ NetPeriodType.day)
      NetPeriodType.day = ⟨2019, 8, 28, 0, 0, 0⟩ :=
  c10_period_marshalling_roundtrip "D" NetPeriodType.day ⟨2019, 8, 28, 0, 0, 0⟩
    (by rfl) (by rfl)
